import Mathlib

/-!
Verification development for the channel-splitter repository.

The program splits a multi-channel audio file into several files according
to a digit grouping pattern.  The reproducible core is the partition loop
in split_channels (and its duplicate in check_files_exist), the
validate_grouping_pattern pre-checks, the filename derivation built on
os.path.splitext, the isdigit syntax gate in main, and the overwrite
prompt.  All of it is embedded below as executable Lean definitions; the
grouping pattern is represented as the list of its digit values
(List Nat) and file paths as List Char.
-/

/-- A contiguous range of 1-based channel indices, stored as its first
channel and its length; the covered channels are
start, start+1, ..., start+size-1, matching the channel_start/group_size
pair of the source loops. -/
structure ChannelGroup where
  start : Nat
  size : Nat
deriving DecidableEq, Repr

/-- Digit read by the source loops: grouping_pattern[pattern_index] while
the index is in range, otherwise the final digit grouping_pattern[-1]. -/
def patternEntry (P : List Nat) (pidx : Nat) : Nat :=
  if pidx < P.length then P.getD pidx 0 else P.getLastD 0

/-- Size chosen for the next group, from split_channels: the pattern
entry, clamped to 1 when it exceeds the remaining channel count. -/
def groupSize (P : List Nat) (pidx remaining : Nat) : Nat :=
  if remaining < patternEntry P pidx then 1 else patternEntry P pidx

/-- Advance of pattern_index in the source loops: it is incremented only
inside the branch taken while pattern_index < len(grouping_pattern). -/
def nextIndex (P : List Nat) (pidx : Nat) : Nat :=
  if pidx < P.length then pidx + 1 else pidx

/-- The while-loop of split_channels, fuel-indexed because the Python loop
runs while remaining_channels > 0 with no termination guarantee of its
own (a zero digit stalls it).  Arguments after the pattern: fuel, then
channel_start, remaining_channels, pattern_index.  Returns none when the
fuel is exhausted with channels still remaining, and the emitted group
list otherwise. -/
def splitLoop (P : List Nat) : Nat → Nat → Nat → Nat → Option (List ChannelGroup)
  | 0, _, remaining, _ => if remaining = 0 then some [] else none
  | fuel + 1, start, remaining, pidx =>
    if remaining = 0 then some []
    else
      let size := groupSize P pidx remaining
      Option.map (fun rest => ChannelGroup.mk start size :: rest)
        (splitLoop P fuel (start + size) (remaining - size) (nextIndex P pidx))

/-- Value of Python int(grouping_pattern): the decimal number whose digit
list is the pattern. -/
def strToNatVal (digits : List Nat) : Nat :=
  digits.foldl (fun a d => 10 * a + d) 0

/-- Embeds validate_grouping_pattern: reject a one-digit pattern equal to
the channel count, reject when the digit sum exceeds the channel count,
accept otherwise. -/
def validate_grouping_pattern (P : List Nat) (N : Nat) : Bool :=
  if P.length = 1 ∧ strToNatVal P = N then false
  else if N < P.sum then false
  else true

/-- The partition part of split_channels: after validation succeeds the
loop runs with channel_start = 1, remaining_channels = N,
pattern_index = 0.  Fuel N is enough whenever the loop terminates at all,
since remaining never increases. -/
def split_channels (P : List Nat) (N : Nat) : Option (List ChannelGroup) :=
  if validate_grouping_pattern P N then splitLoop P N 1 N 0 else none

/-- Decimal rendering of a natural number, most significant digit first,
as produced by the f-string interpolation of a Python int.  Fuel-indexed
helper; fuel n is always sufficient. -/
def natCharsAux : Nat → Nat → List Char
  | 0, _ => []
  | fuel + 1, n =>
    if n = 0 then [] else natCharsAux fuel (n / 10) ++ [Nat.digitChar (n % 10)]

/-- Decimal rendering of a natural number as a character list. -/
def natChars (n : Nat) : List Char :=
  if n = 0 then ['0'] else natCharsAux n n

/-- Decimal decoding of a character list, the left inverse used to prove
natChars injective. -/
def charsToNat (s : List Char) : Nat :=
  s.foldl (fun a c => 10 * a + (c.toNat - 48)) 0

/-- Embeds the group_name computation of the source loops: a single
channel renders as its index, a larger group as first-last joined by a
dash. -/
def groupLabel (g : ChannelGroup) : List Char :=
  if g.size = 1 then natChars g.start
  else natChars g.start ++ ['-'] ++ natChars (g.start + g.size - 1)

/-- Index of the last occurrence of a character, or -1 when absent,
mirroring Python str.rfind.  Helper carrying the current index and the
best answer so far. -/
def lastIndexOfAux (c : Char) : List Char → Nat → Int → Int
  | [], _, acc => acc
  | x :: xs, i, acc => lastIndexOfAux c xs (i + 1) (if x = c then (i : Int) else acc)

/-- Index of the last occurrence of a character in a path, or -1. -/
def lastIndexOf (s : List Char) (c : Char) : Int :=
  lastIndexOfAux c s 0 (-1)

/-- True when some character strictly between the last separator and the
last dot is not itself a dot; this is the leading-dot scan of CPython's
generic splitext (a basename consisting only of dots has no extension). -/
def hasStemChar (p : List Char) (si di : Int) : Bool :=
  (List.range p.length).any fun i =>
    decide (si < (i : Int)) && decide ((i : Int) < di) && !(p.getD i '.' = '.')

/-- Models os.path.splitext for POSIX paths (separator slash, extension
separator dot), as called by the source: split at the rightmost dot that
lies after the rightmost slash, unless every character between them is a
dot, in which case the extension is empty. -/
def splitext (p : List Char) : List Char × List Char :=
  let si := lastIndexOf p '/'
  let di := lastIndexOf p '.'
  if decide (si < di) && hasStemChar p si di then (p.take di.toNat, p.drop di.toNat)
  else (p, [])

/-- Embeds the output_file computation of the source loops:
base_name + bracketed group label + extension, with (base_name, ext) from
os.path.splitext. -/
def deriveOutput (p : List Char) (g : ChannelGroup) : List Char :=
  (splitext p).1 ++ ['['] ++ groupLabel g ++ [']'] ++ (splitext p).2

/-- The while-loop of split_channels seen through the files it writes:
identical control flow to splitLoop, producing the derived output path of
each emitted group. -/
def writeLoop (P : List Nat) (file : List Char) : Nat → Nat → Nat → Nat → Option (List (List Char))
  | 0, _, remaining, _ => if remaining = 0 then some [] else none
  | fuel + 1, start, remaining, pidx =>
    if remaining = 0 then some []
    else
      let size := groupSize P pidx remaining
      Option.map (fun rest => deriveOutput file (ChannelGroup.mk start size) :: rest)
        (writeLoop P file fuel (start + size) (remaining - size) (nextIndex P pidx))

/-- The while-loop of check_files_exist: the same partition-and-name loop,
but each derived output path is appended to existing_files only when
os.path.exists holds for it; the filesystem is abstracted as the
predicate existsFn. -/
def checkLoop (P : List Nat) (file : List Char) (existsFn : List Char → Bool) :
    Nat → Nat → Nat → Nat → Option (List (List Char))
  | 0, _, remaining, _ => if remaining = 0 then some [] else none
  | fuel + 1, start, remaining, pidx =>
    if remaining = 0 then some []
    else
      let size := groupSize P pidx remaining
      let out := deriveOutput file (ChannelGroup.mk start size)
      Option.map (fun rest => if existsFn out then out :: rest else rest)
        (checkLoop P file existsFn fuel (start + size) (remaining - size) (nextIndex P pidx))

/-- Embeds check_files_exist for an input with N channels: its loop also
starts from channel_start = 1, remaining_channels = N, pattern_index = 0. -/
def check_files_exist (P : List Nat) (file : List Char) (existsFn : List Char → Bool)
    (N : Nat) : Option (List (List Char)) :=
  checkLoop P file existsFn N 1 N 0

/-- Per-character model of Python str.lower for the prompt comparison. -/
def pyLower (s : List Char) : List Char :=
  s.map Char.toLower

/-- The overwrite prompt test of split_channels: processing continues
exactly when user_input.lower() == the single letter y. -/
def prompt_accepts (response : List Char) : Bool :=
  pyLower response = ['y']

/-- Buildup of split_channels around the loop: validation, then the
pre-flight existing-file check, then the prompt gate when any output
already exists, then the writing loop.  Returns the written output paths,
or none when the file's processing was aborted (or the loop cannot
terminate). -/
def split_channels_run (P : List Nat) (N : Nat) (file : List Char)
    (existsFn : List Char → Bool) (response : List Char) : Option (List (List Char)) :=
  if validate_grouping_pattern P N then
    match check_files_exist P file existsFn N with
    | none => none
    | some existing =>
      if existing ≠ [] ∧ prompt_accepts response = false then none
      else writeLoop P file N 1 N 0
  else none

/-- The per-file iteration of main: each input file (paired with its
channel count) is processed independently, whatever happened to the
previous ones. -/
def run_batch (P : List Nat) (existsFn : List Char → Bool) (response : List Char) :
    List (List Char × Nat) → List (Option (List (List Char)))
  | [] => []
  | f :: rest =>
    split_channels_run P f.2 f.1 existsFn response :: run_batch P existsFn response rest

/-- Character test of Python str.isdigit: true for the ASCII digits and
for the further Unicode characters carrying the digit property, of which
the compatibility superscripts one, two, three (the examples named in the
Python documentation) stand in here for the full Unicode table. -/
def pyIsDigitChar (c : Char) : Bool :=
  (decide ('0' ≤ c) && decide (c ≤ '9')) || c == '¹' || c == '²' || c == '³'

/-- Embeds the syntax gate grouping_pattern.isdigit() of main: nonempty
and every character a digit in the Unicode sense. -/
def pyIsdigit (s : List Char) : Bool :=
  !s.isEmpty && s.all pyIsDigitChar

/-- The spec's syntax requirement, the regular expression
caret [0-9] plus dollar: nonempty and every character an ASCII digit. -/
def matchesDigitRegex (s : List Char) : Bool :=
  !s.isEmpty && s.all fun c => decide ('0' ≤ c) && decide (c ≤ '9')

/-- Digit values of a pattern string, as int() maps each ASCII digit
character. -/
def parseDigits (s : List Char) : List Nat :=
  s.map fun c => c.toNat - 48

/-- A group list is chained from a start index when each group begins
exactly where the previous one ended plus one. -/
def Chained : Nat → List ChannelGroup → Prop
  | _, [] => True
  | s, g :: rest => g.start = s ∧ Chained (s + g.size) rest

/-- The channels covered by a group, in ascending order. -/
def groupRange (g : ChannelGroup) : List Nat :=
  List.range' g.start g.size

/-- Sample input path used by the concrete scenarios of the spec. -/
def trackPath : List Char :=
  ['t', 'r', 'a', 'c', 'k', '.', 'w', 'a', 'v']

/-- The final digit of a nonempty pattern is one of its digits. -/
lemma getLastD_mem (P : List Nat) (hne : P ≠ []) : P.getLastD 0 ∈ P := by
  rw [List.getLastD_eq_getLast?, List.getLast?_eq_getLast P hne, Option.getD_some]
  exact List.getLast_mem hne

/-- Every pattern entry is one of the pattern's digits. -/
lemma patternEntry_mem (P : List Nat) (hne : P ≠ []) (pidx : Nat) :
    patternEntry P pidx ∈ P := by
  unfold patternEntry
  by_cases hp : pidx < P.length
  · rw [if_pos hp, List.getD_eq_getElem?_getD, List.getElem?_eq_getElem hp, Option.getD_some]
    exact List.getElem_mem hp
  · rw [if_neg hp]
    exact getLastD_mem P hne

/-- The in-range pattern entry is the indexed digit. -/
lemma patternEntry_of_lt (P : List Nat) (pidx : Nat) (hp : pidx < P.length) :
    patternEntry P pidx = P[pidx] := by
  unfold patternEntry
  rw [if_pos hp, List.getD_eq_getElem?_getD, List.getElem?_eq_getElem hp, Option.getD_some]

/-- Past the pattern the entry is the final digit. -/
lemma patternEntry_of_ge (P : List Nat) (pidx : Nat) (hp : ¬ pidx < P.length) :
    patternEntry P pidx = P.getLastD 0 := by
  unfold patternEntry
  rw [if_neg hp]

/-- With digits at least 1 and a nonempty pattern, every chosen group size
is at least 1 whatever the remaining count: this is the per-step decrease
of the loop. -/
lemma groupSize_pos (P : List Nat) (hne : P ≠ []) (hd : ∀ d ∈ P, 1 ≤ d)
    (pidx remaining : Nat) : 1 ≤ groupSize P pidx remaining := by
  unfold groupSize
  by_cases h : remaining < patternEntry P pidx
  · simp [h]
  · rw [if_neg h]
    exact hd _ (patternEntry_mem P hne pidx)

/-- The chosen group size never exceeds a positive remaining count. -/
lemma groupSize_le (P : List Nat) (pidx remaining : Nat) (hr : 1 ≤ remaining) :
    groupSize P pidx remaining ≤ remaining := by
  unfold groupSize
  by_cases h : remaining < patternEntry P pidx
  · simpa [h] using hr
  · rw [if_neg h]
    exact Nat.le_of_not_lt h

/-- Main loop invariant: with a nonempty pattern of positive digits and
fuel at least the remaining count, the loop succeeds and its groups are
chained from the current start, have positive sizes, and cover exactly
the remaining channel range. -/
lemma splitLoop_spec (P : List Nat) (hne : P ≠ []) (hd : ∀ d ∈ P, 1 ≤ d) :
    ∀ fuel remaining start pidx, remaining ≤ fuel →
      ∃ gs, splitLoop P fuel start remaining pidx = some gs ∧
        Chained start gs ∧ (∀ g ∈ gs, 1 ≤ g.size) ∧
        (gs.map groupRange).flatten = List.range' start remaining := by
  intro fuel
  induction fuel with
  | zero =>
    intro remaining start pidx hle
    have h0 : remaining = 0 := Nat.le_zero.mp hle
    subst h0
    exact ⟨[], by simp [splitLoop], trivial, by simp, by simp⟩
  | succ fuel ih =>
    intro remaining start pidx hle
    by_cases h0 : remaining = 0
    · subst h0
      exact ⟨[], by simp [splitLoop], trivial, by simp, by simp⟩
    · have hr : 1 ≤ remaining := Nat.one_le_iff_ne_zero.mpr h0
      have hpos := groupSize_pos P hne hd pidx remaining
      have hsle := groupSize_le P pidx remaining hr
      obtain ⟨rest, hrest, hch, hsz1, hjoin⟩ :=
        ih (remaining - groupSize P pidx remaining)
          (start + groupSize P pidx remaining) (nextIndex P pidx) (by omega)
      refine ⟨ChannelGroup.mk start (groupSize P pidx remaining) :: rest,
        ?_, ⟨rfl, hch⟩, ?_, ?_⟩
      · simp [splitLoop, h0, hrest]
      · intro g hg
        rcases List.mem_cons.mp hg with rfl | hg
        · exact hpos
        · exact hsz1 g hg
      · simp only [List.map_cons, List.flatten_cons, hjoin, groupRange]
        rw [List.range'_append_1]
        congr 1
        omega

/-- Groups chained from a start all begin at or after it. -/
lemma chained_le : ∀ (gs : List ChannelGroup) (s : Nat), Chained s gs →
    ∀ g ∈ gs, s ≤ g.start := by
  intro gs
  induction gs with
  | nil =>
    intro s _ g hg
    cases hg
  | cons a rest ih =>
    intro s h g hg
    obtain ⟨ha, hrest⟩ := h
    rcases List.mem_cons.mp hg with rfl | hg
    · exact Nat.le_of_eq ha.symm
    · have := ih (s + a.size) hrest g hg
      omega

/-- A chained list of positive-size groups is pairwise ordered with each
group ending strictly before the next one begins: the ranges are sorted
ascending and non-overlapping. -/
lemma chained_pairwise : ∀ (gs : List ChannelGroup) (s : Nat), Chained s gs →
    (∀ g ∈ gs, 1 ≤ g.size) →
    List.Pairwise (fun a b => a.start + a.size ≤ b.start) gs := by
  intro gs
  induction gs with
  | nil =>
    intro s _ _
    exact List.Pairwise.nil
  | cons a rest ih =>
    intro s h hsz
    obtain ⟨ha, hrest⟩ := h
    refine List.Pairwise.cons ?_
      (ih (s + a.size) hrest fun g hg => hsz g (List.mem_cons_of_mem a hg))
    intro b hb
    have := chained_le rest (s + a.size) hrest b hb
    omega

/-- The sizes of groups covering a channel range sum to its length. -/
lemma sizes_sum_of_flatten (gs : List ChannelGroup) (s r : Nat)
    (h : (gs.map groupRange).flatten = List.range' s r) :
    (gs.map ChannelGroup.size).sum = r := by
  have hlen := congrArg List.length h
  have hfun : (List.length ∘ groupRange) = ChannelGroup.size := by
    funext g
    simp [groupRange]
  simpa [List.length_flatten, List.map_map, hfun] using hlen

/-- Claim C1: for every channel count N at least 1 and every valid
grouping pattern (nonempty, digits 1-9, passing both pre-checks), the
groups emitted by the partition loop exactly partition the range 1..N:
the group list is nonempty, its first group starts at 1, each group
starts where the previous one ended plus 1 (Chained), the sizes sum to N,
the ranges are non-overlapping and sorted ascending (Pairwise), and their
concatenation is exactly the ascending range 1..N. -/
theorem C1_partition_exact (P : List Nat) (N : Nat) (hne : P ≠ [])
    (hd : ∀ d ∈ P, 1 ≤ d ∧ d ≤ 9) (hN : 1 ≤ N)
    (hv : validate_grouping_pattern P N = true) :
    ∃ gs, split_channels P N = some gs ∧ gs ≠ [] ∧
      (∀ g rest, gs = g :: rest → g.start = 1) ∧
      Chained 1 gs ∧
      (gs.map ChannelGroup.size).sum = N ∧
      List.Pairwise (fun a b => a.start + a.size ≤ b.start) gs ∧
      (gs.map groupRange).flatten = List.range' 1 N := by
  obtain ⟨gs, hgs, hch, hsz, hjoin⟩ :=
    splitLoop_spec P hne (fun d hdm => (hd d hdm).1) N N 1 0 Nat.le.refl
  have hsum := sizes_sum_of_flatten gs 1 N hjoin
  refine ⟨gs, ?_, ?_, ?_, hch, hsum, chained_pairwise gs 1 hch hsz, hjoin⟩
  · simp [split_channels, hv, hgs]
  · intro hnil
    rw [hnil] at hsum
    simp at hsum
    omega
  · intro g rest hcons
    rw [hcons] at hch
    exact hch.1

/-- Witness for C1 at the spec's mono-remainder scenario: pattern 221 on
five channels. -/
theorem C1_partition_exact_witness :
    ([2, 2, 1] ≠ ([] : List Nat)) ∧ (∀ d ∈ [2, 2, 1], 1 ≤ d ∧ d ≤ 9) ∧ (1 ≤ 5) ∧
      validate_grouping_pattern [2, 2, 1] 5 = true ∧
      (∃ gs, split_channels [2, 2, 1] 5 = some gs ∧ gs ≠ [] ∧
        (∀ g rest, gs = g :: rest → g.start = 1) ∧
        Chained 1 gs ∧
        (gs.map ChannelGroup.size).sum = 5 ∧
        List.Pairwise (fun a b => a.start + a.size ≤ b.start) gs ∧
        (gs.map groupRange).flatten = List.range' 1 5) :=
  ⟨by decide, by decide, by decide, by decide,
    C1_partition_exact [2, 2, 1] 5 (by decide) (by decide) (by decide) (by decide)⟩

/-- Claim C4: under digits 1-9 and a pattern passing validation the
partition loop terminates (fuel N suffices, so the loop runs at most N
iterations and emits finitely many groups), and the per-step decrease of
remaining, namely the chosen group size, is at least 1 at every reachable
state. -/
theorem C4_loop_terminates (P : List Nat) (N : Nat) (hne : P ≠ [])
    (hd : ∀ d ∈ P, 1 ≤ d ∧ d ≤ 9) (hN : 1 ≤ N)
    (hv : validate_grouping_pattern P N = true) :
    (∃ gs, split_channels P N = some gs ∧ gs.length ≤ N) ∧
      (∀ pidx remaining, 1 ≤ groupSize P pidx remaining) := by
  have hd1 : ∀ d ∈ P, 1 ≤ d := fun d hdm => (hd d hdm).1
  obtain ⟨gs, hgs, hch, hsz, hjoin⟩ := splitLoop_spec P hne hd1 N N 1 0 Nat.le.refl
  have hsum := sizes_sum_of_flatten gs 1 N hjoin
  refine ⟨⟨gs, by simp [split_channels, hv, hgs], ?_⟩,
    fun pidx r => groupSize_pos P hne hd1 pidx r⟩
  have hlen : gs.length = (gs.map ChannelGroup.size).length := by simp
  have : gs.length ≤ (gs.map ChannelGroup.size).sum := by
    rw [hlen]
    exact List.length_le_sum_of_one_le _ fun i hi => by
      obtain ⟨g, hg, rfl⟩ := List.mem_map.mp hi
      exact hsz g hg
  omega

/-- Witness for C4 at pattern 2 on five channels. -/
theorem C4_loop_terminates_witness :
    ([2] ≠ ([] : List Nat)) ∧ (∀ d ∈ [2], 1 ≤ d ∧ d ≤ 9) ∧ (1 ≤ 5) ∧
      validate_grouping_pattern [2] 5 = true ∧
      ((∃ gs, split_channels [2] 5 = some gs ∧ gs.length ≤ 5) ∧
        (∀ pidx remaining, 1 ≤ groupSize [2] pidx remaining)) :=
  ⟨by decide, by decide, by decide, by decide,
    C4_loop_terminates [2] 5 (by decide) (by decide) (by decide) (by decide)⟩

/-- After the pattern is exhausted the loop repeats the final digit L
while it fits, then emits single channels: the emitted sizes are
remaining / L copies of L followed by remaining % L copies of 1. -/
lemma splitLoop_tail_sizes (P : List Nat) (hlast : 1 ≤ P.getLastD 0) :
    ∀ fuel remaining start pidx, remaining ≤ fuel → P.length ≤ pidx →
      ∃ gs, splitLoop P fuel start remaining pidx = some gs ∧
        gs.map ChannelGroup.size =
          List.replicate (remaining / P.getLastD 0) (P.getLastD 0) ++
            List.replicate (remaining % P.getLastD 0) 1 := by
  intro fuel
  induction fuel with
  | zero =>
    intro remaining start pidx hle _
    have h0 : remaining = 0 := Nat.le_zero.mp hle
    subst h0
    exact ⟨[], by simp [splitLoop], by simp⟩
  | succ fuel ih =>
    intro remaining start pidx hle hpi
    by_cases h0 : remaining = 0
    · subst h0
      exact ⟨[], by simp [splitLoop], by simp⟩
    · have hplt : ¬ pidx < P.length := Nat.not_lt.mpr hpi
      have hentry : patternEntry P pidx = P.getLastD 0 := patternEntry_of_ge P pidx hplt
      have hnext : nextIndex P pidx = pidx := by simp [nextIndex, hplt]
      by_cases hc : remaining < P.getLastD 0
      · have hsz1 : groupSize P pidx remaining = 1 := by
          rw [groupSize, hentry, if_pos hc]
        obtain ⟨m, rfl⟩ : ∃ m, remaining = m + 1 := ⟨remaining - 1, by omega⟩
        obtain ⟨rest, hrest, hsr⟩ := ih m (start + 1) pidx (by omega) hpi
        refine ⟨⟨start, 1⟩ :: rest, ?_, ?_⟩
        · simp only [splitLoop, if_neg h0, hsz1, hnext, Nat.add_sub_cancel, hrest,
            Option.map_some']
        · have hdiv : (m + 1) / P.getLastD 0 = 0 := Nat.div_eq_of_lt hc
          have hmod : (m + 1) % P.getLastD 0 = m + 1 := Nat.mod_eq_of_lt hc
          have hdiv' : m / P.getLastD 0 = 0 := Nat.div_eq_of_lt (by omega)
          have hmod' : m % P.getLastD 0 = m := Nat.mod_eq_of_lt (by omega)
          rw [hdiv', hmod'] at hsr
          simp only [List.map_cons, hsr, hdiv, hmod]
          simp [List.replicate_succ]
      · have hszL : groupSize P pidx remaining = P.getLastD 0 := by
          rw [groupSize, hentry, if_neg hc]
        have hLle : P.getLastD 0 ≤ remaining := Nat.le_of_not_lt hc
        obtain ⟨rest, hrest, hsr⟩ :=
          ih (remaining - P.getLastD 0) (start + P.getLastD 0) pidx (by omega) hpi
        refine ⟨⟨start, P.getLastD 0⟩ :: rest, ?_, ?_⟩
        · simp only [splitLoop, if_neg h0, hszL, hnext, hrest, Option.map_some']
        · have hdiv : remaining / P.getLastD 0 = (remaining - P.getLastD 0) / P.getLastD 0 + 1 :=
            Nat.div_eq_sub_div (by omega) hLle
          have hmod : remaining % P.getLastD 0 = (remaining - P.getLastD 0) % P.getLastD 0 :=
            Nat.mod_eq_sub_mod hLle
          simp only [List.map_cons, hsr, hdiv, hmod]
          simp [List.replicate_succ]

/-- While the still-unread digits fit into the remaining channel count, the
loop emits them unchanged (no clamping occurs), and then behaves as
splitLoop_tail_sizes on the leftover count. -/
lemma splitLoop_pattern_sizes (P : List Nat) (hne : P ≠ []) (hd : ∀ d ∈ P, 1 ≤ d) :
    ∀ fuel remaining start pidx, remaining ≤ fuel → pidx ≤ P.length →
      (P.drop pidx).sum ≤ remaining →
      ∃ gs, splitLoop P fuel start remaining pidx = some gs ∧
        gs.map ChannelGroup.size =
          P.drop pidx ++
            List.replicate ((remaining - (P.drop pidx).sum) / P.getLastD 0) (P.getLastD 0) ++
            List.replicate ((remaining - (P.drop pidx).sum) % P.getLastD 0) 1 := by
  have hlast : 1 ≤ P.getLastD 0 := hd _ (getLastD_mem P hne)
  intro fuel
  induction fuel with
  | zero =>
    intro remaining start pidx hle _ hsum
    have h0 : remaining = 0 := Nat.le_zero.mp hle
    subst h0
    have hd0 : P.drop pidx = [] := by
      by_contra hdp
      obtain ⟨a, t, hat⟩ := List.exists_cons_of_ne_nil hdp
      have ham : a ∈ P := List.mem_of_mem_drop (by rw [hat]; exact List.mem_cons_self a t)
      have := hd a ham
      rw [hat] at hsum
      simp at hsum
      omega
    exact ⟨[], by simp [splitLoop], by simp [hd0]⟩
  | succ fuel ih =>
    intro remaining start pidx hle hpi hsum
    rcases Nat.lt_or_ge pidx P.length with hp | hp
    · have hdrop : P.drop pidx = P[pidx] :: P.drop (pidx + 1) :=
        List.drop_eq_getElem_cons hp
      have hdig : 1 ≤ P[pidx] := hd _ (List.getElem_mem hp)
      have hsum' : P[pidx] + (P.drop (pidx + 1)).sum ≤ remaining := by
        rw [hdrop, List.sum_cons] at hsum
        exact hsum
      have h0 : remaining ≠ 0 := by omega
      have hszeq : groupSize P pidx remaining = P[pidx] := by
        rw [groupSize, patternEntry_of_lt P pidx hp, if_neg (by omega)]
      have hnext : nextIndex P pidx = pidx + 1 := by simp [nextIndex, hp]
      obtain ⟨rest, hrest, hsr⟩ := ih (remaining - P[pidx]) (start + P[pidx]) (pidx + 1)
        (by omega) (by omega) (by omega)
      refine ⟨⟨start, P[pidx]⟩ :: rest, ?_, ?_⟩
      · simp only [splitLoop, if_neg h0, hszeq, hnext, hrest, Option.map_some']
      · have harith : remaining - P[pidx] - (P.drop (pidx + 1)).sum =
            remaining - (P.drop pidx).sum := by
          rw [hdrop]
          simp only [List.sum_cons]
          omega
        rw [harith] at hsr
        simp only [List.map_cons, hsr, hdrop, List.cons_append]
    · obtain ⟨gs, hgs, hsr⟩ :=
        splitLoop_tail_sizes P hlast (fuel + 1) remaining start pidx hle hp
      have hdropnil : P.drop pidx = [] := List.drop_eq_nil_of_le hp
      exact ⟨gs, hgs, by simpa [hdropnil] using hsr⟩

/-- Claim C2: for a pattern of digits 1-9 whose digit sum fits into N and
which passes validation, the emitted sizes are exactly the pattern
digits left to right (so no clamping happens while the pattern is
unexhausted), followed by full copies of the final digit, followed by
single channels for the final under-sized remainder, which is strictly
smaller than the final digit.  In particular pattern 32 on seven channels
gives groups 1-3, 4-5, 6-7 and pattern 3 on four channels gives 1-3, 4. -/
theorem C2_sizes_follow_pattern (P : List Nat) (N : Nat) (hne : P ≠ [])
    (hd : ∀ d ∈ P, 1 ≤ d ∧ d ≤ 9) (hsum : P.sum ≤ N)
    (hv : validate_grouping_pattern P N = true) :
    (∃ gs, split_channels P N = some gs ∧
      gs.map ChannelGroup.size =
        P ++ List.replicate ((N - P.sum) / P.getLastD 0) (P.getLastD 0) ++
          List.replicate ((N - P.sum) % P.getLastD 0) 1 ∧
      (N - P.sum) % P.getLastD 0 < P.getLastD 0) ∧
    split_channels [3, 2] 7 = some [⟨1, 3⟩, ⟨4, 2⟩, ⟨6, 2⟩] ∧
    split_channels [3] 4 = some [⟨1, 3⟩, ⟨4, 1⟩] := by
  have hd1 : ∀ d ∈ P, 1 ≤ d := fun d hdm => (hd d hdm).1
  have hlast : 1 ≤ P.getLastD 0 := hd1 _ (getLastD_mem P hne)
  obtain ⟨gs, hgs, hsr⟩ := splitLoop_pattern_sizes P hne hd1 N N 1 0
    Nat.le.refl (Nat.zero_le _) (by simpa using hsum)
  refine ⟨⟨gs, ?_, by simpa using hsr, Nat.mod_lt _ (by omega)⟩, by decide, by decide⟩
  simp [split_channels, hv, hgs]

/-- Witness for C2 at pattern 32 on seven channels. -/
theorem C2_sizes_follow_pattern_witness :
    ([3, 2] ≠ ([] : List Nat)) ∧ (∀ d ∈ [3, 2], 1 ≤ d ∧ d ≤ 9) ∧
      ([3, 2].sum ≤ 7) ∧ validate_grouping_pattern [3, 2] 7 = true ∧
      ((∃ gs, split_channels [3, 2] 7 = some gs ∧
        gs.map ChannelGroup.size =
          [3, 2] ++ List.replicate ((7 - [3, 2].sum) / [3, 2].getLastD 0) ([3, 2].getLastD 0) ++
            List.replicate ((7 - [3, 2].sum) % [3, 2].getLastD 0) 1 ∧
        (7 - [3, 2].sum) % [3, 2].getLastD 0 < [3, 2].getLastD 0) ∧
      split_channels [3, 2] 7 = some [⟨1, 3⟩, ⟨4, 2⟩, ⟨6, 2⟩] ∧
      split_channels [3] 4 = some [⟨1, 3⟩, ⟨4, 1⟩]) :=
  ⟨by decide, by decide, by decide, by decide,
    C2_sizes_follow_pattern [3, 2] 7 (by decide) (by decide) (by decide) (by decide)⟩

/-- For a one-digit pattern the int() value is that digit. -/
lemma strToNatVal_singleton (P : List Nat) (h : P.length = 1) :
    strToNatVal P = P.headD 0 := by
  rcases P with _ | ⟨d, t⟩
  · simp at h
  · rcases t with _ | ⟨e, t2⟩
    · simp [strToNatVal]
    · simp at h

/-- Claim C3: validation rejects exactly when the pattern is one digit
equal to the channel count, or the digit sum exceeds the channel count;
every other pattern passes.  In particular pattern 4 on four channels and
pattern 9 on four channels are rejected and no groups are emitted. -/
theorem C3_validation_iff (P : List Nat) (N : Nat) :
    (validate_grouping_pattern P N = false ↔
      (P.length = 1 ∧ P.headD 0 = N) ∨ N < P.sum) ∧
    split_channels [4] 4 = none ∧ split_channels [9] 4 = none ∧
    validate_grouping_pattern [4] 4 = false ∧ validate_grouping_pattern [9] 4 = false := by
  refine ⟨?_, by decide, by decide, by decide, by decide⟩
  constructor
  · intro h
    by_cases h1 : P.length = 1 ∧ strToNatVal P = N
    · exact Or.inl ⟨h1.1, by rw [← strToNatVal_singleton P h1.1]; exact h1.2⟩
    · by_cases h2 : N < P.sum
      · exact Or.inr h2
      · simp [validate_grouping_pattern, h1, h2] at h
  · intro h
    rcases h with ⟨hlen, hhead⟩ | hlt
    · have hval : strToNatVal P = N := by rw [strToNatVal_singleton P hlen]; exact hhead
      simp [validate_grouping_pattern, hlen, hval]
    · by_cases h1 : P.length = 1 ∧ strToNatVal P = N
      · simp [validate_grouping_pattern, h1]
      · simp [validate_grouping_pattern, h1, hlt]

/-- Once the loop of split_channels reaches the exhausted zero digit of
pattern 10, the chosen size is 0 forever and remaining never decreases:
no fuel suffices. -/
lemma zeroLoop_tail : ∀ fuel start remaining, 0 < remaining →
    splitLoop [1, 0] fuel start remaining 2 = none := by
  intro fuel
  induction fuel with
  | zero =>
    intro s r hr
    simp [splitLoop, show r ≠ 0 by omega]
  | succ fuel ih =>
    intro s r hr
    have hsz : groupSize [1, 0] 2 r = 0 := by
      simp [groupSize, patternEntry]
    have hnext : nextIndex [1, 0] 2 = 2 := by decide
    simp only [splitLoop, if_neg (show ¬ r = 0 by omega), hsz, hnext,
      Nat.add_zero, Nat.sub_zero, ih s r hr, Option.map_none']

/-- From pattern index 1 of pattern 10 the loop reads the zero digit and
stalls. -/
lemma zeroLoop_one : ∀ fuel start remaining, 0 < remaining →
    splitLoop [1, 0] fuel start remaining 1 = none := by
  intro fuel
  cases fuel with
  | zero =>
    intro s r hr
    simp [splitLoop, show r ≠ 0 by omega]
  | succ fuel =>
    intro s r hr
    have hsz : groupSize [1, 0] 1 r = 0 := by
      simp [groupSize, patternEntry]
    have hnext : nextIndex [1, 0] 1 = 2 := by decide
    simp only [splitLoop, if_neg (show ¬ r = 0 by omega), hsz, hnext,
      Nat.add_zero, Nat.sub_zero, zeroLoop_tail fuel s r hr, Option.map_none']

/-- The full loop on pattern 10 with five channels never terminates. -/
lemma zeroLoop_top (fuel : Nat) : splitLoop [1, 0] fuel 1 5 0 = none := by
  cases fuel with
  | zero => decide
  | succ fuel =>
    have hsz : groupSize [1, 0] 0 5 = 1 := by decide
    have hnext : nextIndex [1, 0] 0 = 1 := by decide
    simp only [splitLoop, if_neg (show ¬ (5 : Nat) = 0 by decide), hsz, hnext]
    rw [show (1 : Nat) + 1 = 2 from rfl, show (5 : Nat) - 1 = 4 from rfl,
      zeroLoop_one fuel 2 4 (by omega)]
    rfl

/-- Claim C5 records a code bug: the pattern 10 contains the digit 0, yet
the digits-only syntax gate accepts it, validation accepts it against
five channels, and the partition loop then never terminates (no fuel
makes it finish), instead of the pattern being explicitly rejected before
partitioning as the spec directs. -/
theorem C5_zero_digit_stalls (fuel : Nat) :
    pyIsdigit ['1', '0'] = true ∧
    parseDigits ['1', '0'] = [1, 0] ∧
    validate_grouping_pattern [1, 0] 5 = true ∧
    splitLoop [1, 0] fuel 1 5 0 = none ∧
    split_channels [1, 0] 5 = none := by
  refine ⟨by decide, by decide, by decide, zeroLoop_top fuel, ?_⟩
  simp [split_channels, show validate_grouping_pattern [1, 0] 5 = true from by decide,
    zeroLoop_top 5]

/-- Claim C6: the derived output path is always the splitext base, an
opening bracket, the group label, a closing bracket, and the splitext
extension; the label of a single channel is its index and the label of a
larger group is first and last index joined by a dash; on input track.wav
the group of channels 3-4 yields track[3-4].wav and the single channel 1
yields track[1].wav; and derivation is deterministic. -/
theorem C6_filename_derivation :
    (∀ p g, deriveOutput p g =
      (splitext p).1 ++ ['['] ++ groupLabel g ++ [']'] ++ (splitext p).2) ∧
    (∀ s sz, groupLabel ⟨s, sz⟩ =
      if sz = 1 then natChars s else natChars s ++ ['-'] ++ natChars (s + sz - 1)) ∧
    splitext trackPath = (['t', 'r', 'a', 'c', 'k'], ['.', 'w', 'a', 'v']) ∧
    deriveOutput trackPath ⟨3, 2⟩ =
      ['t', 'r', 'a', 'c', 'k', '[', '3', '-', '4', ']', '.', 'w', 'a', 'v'] ∧
    deriveOutput trackPath ⟨1, 1⟩ =
      ['t', 'r', 'a', 'c', 'k', '[', '1', ']', '.', 'w', 'a', 'v'] ∧
    (∀ p g, deriveOutput p g = deriveOutput p g) :=
  ⟨fun _ _ => rfl, fun _ _ => rfl, by decide, by decide, by decide, fun _ _ => rfl⟩

/-- The writing loop emits exactly the derived output path of each group
the partition loop emits, state for state. -/
lemma writeLoop_eq_splitLoop (P : List Nat) (file : List Char) :
    ∀ fuel start remaining pidx,
      writeLoop P file fuel start remaining pidx =
        Option.map (List.map (deriveOutput file)) (splitLoop P fuel start remaining pidx) := by
  intro fuel
  induction fuel with
  | zero =>
    intro s r p
    by_cases h : r = 0 <;> simp [writeLoop, splitLoop, h]
  | succ fuel ih =>
    intro s r p
    by_cases h : r = 0
    · simp [writeLoop, splitLoop, h]
    · simp only [writeLoop, splitLoop, if_neg h, ih]
      cases splitLoop P fuel (s + groupSize P p r) (r - groupSize P p r) (nextIndex P p) <;>
        simp

/-- The pre-flight loop of check_files_exist keeps, state for state,
exactly the output paths of the writing loop that already exist. -/
lemma checkLoop_eq_writeLoop (P : List Nat) (file : List Char) (existsFn : List Char → Bool) :
    ∀ fuel start remaining pidx,
      checkLoop P file existsFn fuel start remaining pidx =
        Option.map (List.filter existsFn) (writeLoop P file fuel start remaining pidx) := by
  intro fuel
  induction fuel with
  | zero =>
    intro s r p
    by_cases h : r = 0 <;> simp [checkLoop, writeLoop, h]
  | succ fuel ih =>
    intro s r p
    by_cases h : r = 0
    · simp [checkLoop, writeLoop, h]
    · simp only [checkLoop, writeLoop, if_neg h, ih]
      cases writeLoop P file fuel (s + groupSize P p r) (r - groupSize P p r) (nextIndex P p) <;>
        simp [List.filter_cons]

/-- Claim C7: for the same input file, pattern and channel count, the
pre-flight check enumerates exactly the output paths that the writing
loop derives, flagging precisely the already-existing ones: the two
independently coded partition-and-name loops are equivalent. -/
theorem C7_preflight_matches_writes (P : List Nat) (file : List Char)
    (existsFn : List Char → Bool) (N : Nat) :
    check_files_exist P file existsFn N =
      Option.map (List.filter existsFn)
        (Option.map (List.map (deriveOutput file)) (splitLoop P N 1 N 0)) ∧
    writeLoop P file N 1 N 0 =
      Option.map (List.map (deriveOutput file)) (splitLoop P N 1 N 0) := by
  constructor
  · rw [check_files_exist, checkLoop_eq_writeLoop, writeLoop_eq_splitLoop]
  · exact writeLoop_eq_splitLoop P file N 1 N 0

/-- Folding the decoder over one appended digit character. -/
lemma charsToNat_append_digit (xs : List Char) (c : Char) :
    charsToNat (xs ++ [c]) = 10 * charsToNat xs + (c.toNat - 48) := by
  simp [charsToNat, List.foldl_append]

/-- The decoder inverts the fuel-indexed renderer whenever the fuel
suffices. -/
lemma charsToNat_natCharsAux : ∀ fuel n, n ≤ fuel →
    charsToNat (natCharsAux fuel n) = n := by
  intro fuel
  induction fuel with
  | zero =>
    intro n h
    have h0 : n = 0 := Nat.le_zero.mp h
    subst h0
    simp [natCharsAux, charsToNat]
  | succ fuel ih =>
    intro n h
    by_cases h0 : n = 0
    · simp [natCharsAux, h0, charsToNat]
    · have hlt : n / 10 < n := Nat.div_lt_self (Nat.pos_of_ne_zero h0) (by omega)
      have h10 : n / 10 ≤ fuel := by omega
      have hd : ∀ d, d < 10 → (Nat.digitChar d).toNat - 48 = d := by decide
      simp only [natCharsAux, if_neg h0]
      rw [charsToNat_append_digit, ih _ h10, hd _ (Nat.mod_lt _ (by omega))]
      omega

/-- The decimal decoder is a left inverse of the renderer. -/
lemma charsToNat_natChars (n : Nat) : charsToNat (natChars n) = n := by
  by_cases h0 : n = 0
  · subst h0
    decide
  · simp only [natChars, if_neg h0]
    exact charsToNat_natCharsAux n n Nat.le.refl

/-- Decimal rendering of naturals is injective. -/
lemma natChars_inj {a b : Nat} (h : natChars a = natChars b) : a = b := by
  have hc := congrArg charsToNat h
  rwa [charsToNat_natChars, charsToNat_natChars] at hc

/-- Every character the fuel-indexed renderer emits is an ASCII digit. -/
lemma natCharsAux_digits : ∀ fuel n c, c ∈ natCharsAux fuel n →
    ('0' ≤ c ∧ c ≤ '9') := by
  intro fuel
  induction fuel with
  | zero =>
    intro n c hc
    simp [natCharsAux] at hc
  | succ fuel ih =>
    intro n c hc
    by_cases h0 : n = 0
    · simp [natCharsAux, h0] at hc
    · simp only [natCharsAux, if_neg h0, List.mem_append, List.mem_singleton] at hc
      rcases hc with hc | rfl
      · exact ih _ _ hc
      · have hlt : n % 10 < 10 := Nat.mod_lt _ (by omega)
        have hall : ∀ d, d < 10 → ('0' ≤ Nat.digitChar d ∧ Nat.digitChar d ≤ '9') := by
          decide
        exact hall _ hlt

/-- A rendered natural never contains the dash character. -/
lemma natChars_no_dash (n : Nat) : '-' ∉ natChars n := by
  intro h
  by_cases h0 : n = 0
  · subst h0
    revert h
    decide
  · simp only [natChars, if_neg h0] at h
    have := natCharsAux_digits n n '-' h
    revert this
    decide

/-- Two dash-separated concatenations agree exactly on their components
when neither left part contains a dash. -/
lemma dash_split : ∀ (a c b d : List Char), '-' ∉ a → '-' ∉ c →
    a ++ '-' :: b = c ++ '-' :: d → a = c ∧ b = d := by
  intro a
  induction a with
  | nil =>
    intro c b d _ hc h
    cases c with
    | nil => simpa using h
    | cons y ys =>
      simp only [List.nil_append, List.cons_append, List.cons.injEq] at h
      obtain ⟨hy, -⟩ := h
      rw [← hy] at hc
      exact absurd (List.mem_cons_self _ _) hc
  | cons x xs ih =>
    intro c b d ha hc h
    cases c with
    | nil =>
      simp only [List.nil_append, List.cons_append, List.cons.injEq] at h
      obtain ⟨hx, -⟩ := h
      rw [hx] at ha
      exact absurd (List.mem_cons_self _ _) ha
    | cons y ys =>
      simp only [List.cons_append, List.cons.injEq] at h
      obtain ⟨rfl, h2⟩ := h
      have hxs : '-' ∉ xs := fun hm => ha (List.mem_cons_of_mem _ hm)
      have hys : '-' ∉ ys := fun hm => hc (List.mem_cons_of_mem _ hm)
      obtain ⟨h3, h4⟩ := ih ys b d hxs hys h2
      exact ⟨by rw [h3], h4⟩

/-- Groups of positive size with different starts have different labels. -/
lemma groupLabel_inj (a b : ChannelGroup)
    (hne : a.start ≠ b.start) : groupLabel a ≠ groupLabel b := by
  intro h
  by_cases h1 : a.size = 1 <;> by_cases h2 : b.size = 1
  · rw [groupLabel, groupLabel, if_pos h1, if_pos h2] at h
    exact hne (natChars_inj h)
  · rw [groupLabel, groupLabel, if_pos h1, if_neg h2] at h
    have hmem : '-' ∈ natChars a.start := by
      rw [h]
      simp
    exact natChars_no_dash a.start hmem
  · rw [groupLabel, groupLabel, if_neg h1, if_pos h2] at h
    have hmem : '-' ∈ natChars b.start := by
      rw [← h]
      simp
    exact natChars_no_dash b.start hmem
  · rw [groupLabel, groupLabel, if_neg h1, if_neg h2] at h
    have h' : natChars a.start ++ '-' :: natChars (a.start + a.size - 1) =
        natChars b.start ++ '-' :: natChars (b.start + b.size - 1) := by
      simpa [List.append_assoc] using h
    obtain ⟨heq, -⟩ :=
      dash_split _ _ _ _ (natChars_no_dash _) (natChars_no_dash _) h'
    exact hne (natChars_inj heq)

/-- Different labels give different derived output paths for the same
input path. -/
lemma deriveOutput_inj (p : List Char) (a b : ChannelGroup)
    (hlab : groupLabel a ≠ groupLabel b) : deriveOutput p a ≠ deriveOutput p b := by
  intro h
  apply hlab
  rw [deriveOutput, deriveOutput] at h
  simp only [List.append_assoc, List.append_cancel_left_eq, List.singleton_append,
    List.cons.injEq, true_and] at h
  exact List.append_inj_left' (List.cons.inj h).2 rfl

/-- In a pairwise-related list, two distinct members are related one way
or the other. -/
lemma pairwise_rel_of_mem {R : ChannelGroup → ChannelGroup → Prop} :
    ∀ (l : List ChannelGroup), List.Pairwise R l →
      ∀ a ∈ l, ∀ b ∈ l, a ≠ b → R a b ∨ R b a := by
  intro l
  induction l with
  | nil =>
    intro _ a ha
    cases ha
  | cons x rest ih =>
    intro hp a ha b hb hab
    obtain ⟨hx, hrest⟩ := List.pairwise_cons.mp hp
    rcases List.mem_cons.mp ha with ha1 | ha2
    · rcases List.mem_cons.mp hb with hb1 | hb2
      · exact absurd (ha1.trans hb1.symm) hab
      · subst ha1
        exact Or.inl (hx b hb2)
    · rcases List.mem_cons.mp hb with hb1 | hb2
      · subst hb1
        exact Or.inr (hx a ha2)
      · exact ih hrest a ha2 b hb2 hab

/-- Claim C8: for any input path and any group sequence produced by one
partition run, the filename deriver is injective: two distinct emitted
groups always receive distinct output paths. -/
theorem C8_filenames_injective (P : List Nat) (N : Nat) (path : List Char)
    (gs : List ChannelGroup) (hne : P ≠ []) (hd : ∀ d ∈ P, 1 ≤ d ∧ d ≤ 9)
    (hsplit : split_channels P N = some gs) :
    ∀ g₁ ∈ gs, ∀ g₂ ∈ gs, g₁ ≠ g₂ →
      deriveOutput path g₁ ≠ deriveOutput path g₂ := by
  have hd1 : ∀ d ∈ P, 1 ≤ d := fun d hdm => (hd d hdm).1
  obtain ⟨gs', hgs', hch, hsz, hjoin⟩ := splitLoop_spec P hne hd1 N N 1 0 Nat.le.refl
  have hval : validate_grouping_pattern P N = true := by
    cases hvb : validate_grouping_pattern P N with
    | false => simp [split_channels, hvb] at hsplit
    | true => rfl
  have hgseq : gs' = gs := by
    unfold split_channels at hsplit
    simp only [hval, if_true] at hsplit
    rw [hgs'] at hsplit
    exact Option.some.inj hsplit
  subst hgseq
  have hpw := chained_pairwise gs' 1 hch hsz
  intro g₁ h₁ g₂ h₂ h12
  have hstart : g₁.start ≠ g₂.start := by
    rcases pairwise_rel_of_mem gs' hpw g₁ h₁ g₂ h₂ h12 with hr | hr
    · have := hsz g₁ h₁
      omega
    · have := hsz g₂ h₂
      omega
  exact deriveOutput_inj path g₁ g₂ (groupLabel_inj g₁ g₂ hstart)

/-- Witness for C8 at pattern 32 on seven channels and input track.wav:
the first two emitted groups receive different output paths. -/
theorem C8_filenames_injective_witness :
    ([3, 2] ≠ ([] : List Nat)) ∧ (∀ d ∈ [3, 2], 1 ≤ d ∧ d ≤ 9) ∧
      split_channels [3, 2] 7 = some [⟨1, 3⟩, ⟨4, 2⟩, ⟨6, 2⟩] ∧
      deriveOutput trackPath ⟨1, 3⟩ ≠ deriveOutput trackPath ⟨4, 2⟩ :=
  ⟨by decide, by decide, by decide,
    C8_filenames_injective [3, 2] 7 trackPath [⟨1, 3⟩, ⟨4, 2⟩, ⟨6, 2⟩]
      (by decide) (by decide) (by decide)
      ⟨1, 3⟩ (by decide) ⟨4, 2⟩ (by decide) (by decide)⟩

/-- Counterexample for C9 as stated: the superscript-two character is not
an ASCII digit, so the string made of it alone does not match the regular
expression of the spec, yet Python str.isdigit accepts it (superscript
digits carry the Unicode digit property), so the syntax gate passes it. -/
theorem C9_counterexample :
    pyIsdigit ['²'] = true ∧ matchesDigitRegex ['²'] = false := by
  decide

/-- Claim C9 amended: every argument matching the ASCII digit regular
expression passes the gate, and the gate rejects exactly the arguments
that are empty or contain a character without the digit property; but
acceptance is strictly wider than the regular expression, as the
counterexample shows. -/
theorem C9_syntax_gate (s : List Char) :
    (matchesDigitRegex s = true → pyIsdigit s = true) ∧
    (pyIsdigit s = false ↔ s = [] ∨ ∃ c ∈ s, pyIsDigitChar c = false) := by
  constructor
  · intro h
    simp only [matchesDigitRegex, Bool.and_eq_true, List.all_eq_true] at h
    simp only [pyIsdigit, Bool.and_eq_true, List.all_eq_true]
    refine ⟨h.1, fun c hc => ?_⟩
    have hcd := h.2 c hc
    simp only [pyIsDigitChar, Bool.or_eq_true]
    exact Or.inl (Or.inl (Or.inl (by simp [hcd.1, hcd.2])))
  · cases s with
    | nil => simp [pyIsdigit]
    | cons c t =>
      simp only [pyIsdigit, List.isEmpty_cons, Bool.not_false, Bool.true_and,
        List.all_eq_false, reduceCtorEq, false_or]
      constructor
      · rintro ⟨x, hx, hpx⟩
        exact ⟨x, hx, Bool.not_eq_true _ ▸ Bool.eq_false_iff.mpr hpx⟩
      · rintro ⟨x, hx, hpx⟩
        exact ⟨x, hx, by simp [hpx]⟩

/-- Witness for C9 amended at the well-formed argument 32. -/
theorem C9_syntax_gate_witness :
    matchesDigitRegex ['3', '2'] = true ∧ pyIsdigit ['3', '2'] = true :=
  ⟨by decide, (C9_syntax_gate ['3', '2']).1 (by decide)⟩

/-- Claim C10: at the overwrite prompt, processing of the current file
proceeds exactly when the lowercased response is the single letter y;
any other response (yes, Y es, empty input) aborts that file with no
output written, while the per-file batch iteration continues with the
remaining files unchanged. -/
theorem C10_overwrite_prompt (P : List Nat) (N : Nat) (file : List Char)
    (existsFn : List Char → Bool) (response : List Char) (existing : List (List Char))
    (hne : P ≠ []) (hd : ∀ d ∈ P, 1 ≤ d)
    (hval : validate_grouping_pattern P N = true)
    (hcheck : check_files_exist P file existsFn N = some existing)
    (hex : existing ≠ []) :
    (prompt_accepts response = true ↔ pyLower response = ['y']) ∧
    (prompt_accepts response = false →
      split_channels_run P N file existsFn response = none) ∧
    (prompt_accepts response = true →
      ∃ outs, split_channels_run P N file existsFn response = some outs) ∧
    (∀ f rest, run_batch P existsFn response (f :: rest) =
      split_channels_run P f.2 f.1 existsFn response :: run_batch P existsFn response rest) ∧
    prompt_accepts ['y'] = true ∧ prompt_accepts ['Y'] = true ∧
    prompt_accepts ['y', 'e', 's'] = false ∧ prompt_accepts [] = false ∧
    prompt_accepts ['Y', ' ', 'e', 's'] = false := by
  refine ⟨?_, ?_, ?_, fun f rest => rfl, by decide, by decide, by decide, by decide, by decide⟩
  · simp [prompt_accepts]
  · intro hno
    unfold split_channels_run
    simp only [hval, if_true, hcheck]
    simp [hex, hno]
  · intro hyes
    obtain ⟨gs, hgs, -, -, -⟩ := splitLoop_spec P hne hd N N 1 0 Nat.le.refl
    refine ⟨gs.map (deriveOutput file), ?_⟩
    unfold split_channels_run
    simp only [hval, if_true, hcheck]
    rw [if_neg (by simp [hyes])]
    rw [writeLoop_eq_splitLoop, hgs]
    rfl

/-- Witness for C10 at pattern 32 on seven channels of track.wav, with a
filesystem on which every path exists and an accepting response. -/
theorem C10_overwrite_prompt_witness :
    ([3, 2] ≠ ([] : List Nat)) ∧ (∀ d ∈ [3, 2], 1 ≤ d) ∧
      validate_grouping_pattern [3, 2] 7 = true ∧
      check_files_exist [3, 2] trackPath (fun _ => true) 7 =
        some [deriveOutput trackPath ⟨1, 3⟩, deriveOutput trackPath ⟨4, 2⟩,
          deriveOutput trackPath ⟨6, 2⟩] ∧
      ((prompt_accepts ['y'] = true ↔ pyLower ['y'] = ['y']) ∧
      (prompt_accepts ['y'] = false →
        split_channels_run [3, 2] 7 trackPath (fun _ => true) ['y'] = none) ∧
      (prompt_accepts ['y'] = true →
        ∃ outs, split_channels_run [3, 2] 7 trackPath (fun _ => true) ['y'] = some outs) ∧
      (∀ f rest, run_batch [3, 2] (fun _ => true) ['y'] (f :: rest) =
        split_channels_run [3, 2] f.2 f.1 (fun _ => true) ['y'] ::
          run_batch [3, 2] (fun _ => true) ['y'] rest) ∧
      prompt_accepts ['y'] = true ∧ prompt_accepts ['Y'] = true ∧
      prompt_accepts ['y', 'e', 's'] = false ∧ prompt_accepts [] = false ∧
      prompt_accepts ['Y', ' ', 'e', 's'] = false) :=
  ⟨by decide, by decide, by decide, by decide,
    C10_overwrite_prompt [3, 2] 7 trackPath (fun _ => true) ['y']
      [deriveOutput trackPath ⟨1, 3⟩, deriveOutput trackPath ⟨4, 2⟩,
        deriveOutput trackPath ⟨6, 2⟩]
      (by decide) (by decide) (by decide) (by decide) (by decide)⟩
